import Mathlib

/-!
Verification development for the discord-transcription bot.

The state and text manipulation of the bot's core (transcript accumulator,
summary chunking, session registry, speaker-stream cleanup latch) is embedded
as executable Lean definitions, translated from `src/transcriptManager.ts`,
`src/voiceStateManager.ts` and `src/createListeningStream.ts`.  Text is
modelled as `List Char` so that the JavaScript string operations (`trim`,
`replace`, `split`, `length`, concatenation) have direct, provable
counterparts.  Wall-clock values (`Date.now()` timestamps) are modelled as
`Nat` inputs; external collaborators (Discord client, Deepgram, the
summarization model) are modelled as function parameters at their interface
boundary.
-/

/-- JavaScript strings are modelled as lists of characters. -/
abbrev Str := List Char

/-- Embed a Lean string literal as a character list. -/
def lit (s : String) : Str := s.data

/-- Whitespace as recognized by JavaScript `\s` / `String.prototype.trim`
(restricted to the ASCII whitespace characters that can occur in the
documents this program builds). -/
def isWs (c : Char) : Bool :=
  c = ' ' || c = '\t' || c = '\n' || c = '\r' || c = '\x0b' || c = '\x0c'

/-- Model of JavaScript `String.prototype.trim`: drop whitespace from both
ends. -/
def jsTrim (cs : Str) : Str :=
  ((cs.dropWhile isWs).reverse.dropWhile isWs).reverse

/-- Does the 3-character window match `WAP` case-insensitively?  Embeds the
regex `/WAP/i` match at one position (`transcriptManager.ts` line 512). -/
def wapMatch (c1 c2 c3 : Char) : Bool :=
  c1.toLower = 'w' && c2.toLower = 'a' && c3.toLower = 'p'

/-- Model of `transcript.replace(/WAP/gi, 'Whop')`
(`transcriptManager.ts` line 512): scan left to right, replace each
(non-overlapping) case-insensitive occurrence of `WAP` with `Whop` and
continue after the replaced occurrence. -/
def replaceWAP : Str → Str
  | [] => []
  | [c] => [c]
  | [c1, c2] => [c1, c2]
  | c1 :: c2 :: c3 :: rest =>
    if wapMatch c1 c2 c3 then lit "Whop" ++ replaceWAP rest
    else c1 :: replaceWAP (c2 :: c3 :: rest)

/-- Does the string start with a case-insensitive occurrence of `WAP`? -/
def wapHead : Str → Bool
  | [] => false
  | [_] => false
  | [_, _] => false
  | c1 :: c2 :: c3 :: _ => wapMatch c1 c2 c3

/-- Does the string contain a case-insensitive occurrence of `WAP`
anywhere? -/
def containsWapCI : Str → Bool
  | [] => false
  | c :: rest => wapHead (c :: rest) || containsWapCI rest

-- A transcribed fragment as stored by the accumulator
-- (`transcriptManager.ts`, interface `TranscriptMessage`); the timestamp is
-- the `Date.now()` wall clock at append time.
structure TranscriptMessage where
  text : Str
  timestamp : Nat
  deriving DecidableEq, Repr

-- Per-user transcript data (`transcriptManager.ts`, interface
-- `TranscriptData`).
structure TranscriptData where
  userId : String
  displayName : Str
  messages : List TranscriptMessage
  deriving DecidableEq, Repr

/-- The accumulator store: `Map` of guild id to `Map` of user id to
transcript data; JavaScript `Map`s are insertion-ordered, so both levels are
association lists in insertion order. -/
abbrev TState := List (String × List TranscriptData)

/-- `Map.get` on an insertion-ordered association list. -/
def lookupA {V : Type} (k : String) : List (String × V) → Option V
  | [] => none
  | (k', v) :: rest => if k' = k then some v else lookupA k rest

/-- `Map.delete` on an insertion-ordered association list. -/
def eraseA {V : Type} (k : String) (m : List (String × V)) :
    List (String × V) :=
  m.filter (fun p => decide (p.1 ≠ k))

/-- Append one message to one user's transcript data. -/
def pushMessage (text : Str) (ts : Nat) (d : TranscriptData) :
    TranscriptData :=
  { d with messages := d.messages ++ [⟨text, ts⟩] }

/-- Update the (insertion-ordered) user map of one guild: create the user
entry on first append, then push the message. -/
def addToGuild (userId : String) (displayName text : Str) (ts : Nat) :
    List TranscriptData → List TranscriptData
  | [] => [pushMessage text ts ⟨userId, displayName, []⟩]
  | d :: rest =>
    if d.userId = userId then pushMessage text ts d :: rest
    else d :: addToGuild userId displayName text ts rest

/-- Embedding of `addTranscriptMessage` (`transcriptManager.ts` lines
431-463): get-or-create the guild map, get-or-create the user entry (with
the display name given at creation time), push the message with the current
wall-clock timestamp `ts`. -/
def addTranscriptMessage (guildId userId : String) (displayName text : Str)
    (ts : Nat) : TState → TState
  | [] => [(guildId, addToGuild userId displayName text ts [])]
  | (g, users) :: rest =>
    if g = guildId then (g, addToGuild userId displayName text ts users) :: rest
    else (g, users) :: addTranscriptMessage guildId userId displayName text ts rest

-- One entry of the `allMessages` collection built by `generateTranscript`.
structure Msg where
  userId : String
  displayName : Str
  text : Str
  timestamp : Nat
  deriving DecidableEq, Repr

/-- The collection phase of `generateTranscript` (lines 485-494): walk the
user map in insertion order and, per user, the messages in append order. -/
def collectMsgs (users : List TranscriptData) : List Msg :=
  users.flatMap (fun d =>
    d.messages.map (fun m => ⟨d.userId, d.displayName, m.text, m.timestamp⟩))

/-- Stable insertion of a message into a timestamp-sorted list: the new
element goes before the first element with a timestamp not smaller than its
own, so elements with equal timestamps keep their relative order. -/
def insertByTs (m : Msg) : List Msg → List Msg
  | [] => [m]
  | y :: ys => if y.timestamp < m.timestamp then y :: insertByTs m ys
               else m :: y :: ys

/-- Embedding of `allMessages.sort((a, b) => a.timestamp - b.timestamp)`
(line 497): a stable sort by ascending timestamp (JavaScript `sort` is
stable). -/
def sortMsgs : List Msg → List Msg
  | [] => []
  | m :: rest => insertByTs m (sortMsgs rest)

/-- The rendering loop of `generateTranscript` (lines 500-509): walk the
sorted messages keeping the current speaker's display name; emit a
`Speaker @name:` header whenever the display name differs from the current
one, then the fragment text followed by a space. -/
def renderGo (currentSpeaker : Str) : List Msg → Str
  | [] => []
  | m :: rest =>
    (if m.displayName ≠ currentSpeaker then
      lit "\n\nSpeaker @" ++ m.displayName ++ lit ": "
    else []) ++ m.text ++ lit " " ++ renderGo m.displayName rest

/-- The full render: the current speaker starts out as the empty string. -/
def renderTranscript (msgs : List Msg) : Str :=
  renderGo [] msgs

/-- The document produced from one guild's accumulated fragments:
collect, stable-sort by timestamp, render, `trim()`, then rewrite `WAP` to
`Whop` case-insensitively (lines 485-512). -/
def drainedDoc (users : List TranscriptData) : Str :=
  replaceWAP (jsTrim (renderTranscript (sortMsgs (collectMsgs users))))

/-- Embedding of `generateTranscript` (`transcriptManager.ts` lines
468-518): `null` (here `none`) when the guild has no data or an empty user
map; otherwise the rendered document, with the guild's accumulated data
deleted from the store. -/
def generateTranscript (guildId : String) (st : TState) :
    Option Str × TState :=
  match lookupA guildId st with
  | none => (none, st)
  | some users =>
    if users.isEmpty then (none, st)
    else (some (drainedDoc users), eraseA guildId st)


/-!
## Grouping view of the render (for the speaker-attribution properties)

`groupRuns` splits a message sequence into maximal runs of consecutive
messages sharing a display name; `renderGroups` renders one
`Speaker @name:` header per run.  The theorems below show the render loop
of `generateTranscript` equals this per-run rendering.
-/

/-- Maximal runs of consecutive messages with the same display name. -/
def groupRuns : List Msg → List (Str × List Str)
  | [] => []
  | m :: rest =>
    match groupRuns rest with
    | [] => [(m.displayName, [m.text])]
    | (n, ts) :: gs =>
      if m.displayName = n then (n, m.text :: ts) :: gs
      else (m.displayName, [m.text]) :: (n, ts) :: gs

/-- One speaker block: a header followed by the texts, each with a trailing
space. -/
def renderBlock (n : Str) (ts : List Str) : Str :=
  lit "\n\nSpeaker @" ++ n ++ lit ": " ++ (ts.map (· ++ lit " ")).flatten

/-- Document made of one block per run. -/
def renderGroups (gs : List (Str × List Str)) : Str :=
  (gs.map (fun g => renderBlock g.1 g.2)).flatten

/-- Block rendering relative to a current speaker: if the first run belongs
to the current speaker its header is omitted. -/
def renderGroupsCont (currentSpeaker : Str) (gs : List (Str × List Str)) :
    Str :=
  match gs with
  | [] => []
  | (n, ts) :: gs' =>
    if n = currentSpeaker then (ts.map (· ++ lit " ")).flatten ++ renderGroups gs'
    else renderGroups ((n, ts) :: gs')

/-- One call to `addTranscriptMessage`, as raw event data. -/
structure AppendEv where
  guildId : String
  userId : String
  displayName : Str
  text : Str
  timestamp : Nat
  deriving DecidableEq, Repr

/-- Replay a sequence of appends against an empty store. -/
def buildState (l : List AppendEv) : TState :=
  l.foldl (fun st e =>
    addTranscriptMessage e.guildId e.userId e.displayName e.text e.timestamp st) []

/-- Modelled from the claim's words (not from the source), for comparison
with `generateTranscript`: drain that sorts the fragments by timestamp with
a stable sort whose ties are broken by global append order (the order the
fragments were inserted into the accumulator), then renders identically. -/
def drainSpecAppendOrder (guildId : String) (l : List AppendEv) : Str :=
  replaceWAP (jsTrim (renderTranscript (sortMsgs
    ((l.filter (fun e => decide (e.guildId = guildId))).map
      (fun e => ⟨e.userId, e.displayName, e.text, e.timestamp⟩)))))

/-!
## Summary chunking (`transcriptManager.ts` lines 641-699)
-/

/-- Does the remainder of the string begin a section, i.e. match the
lookahead `(?=###\s)`? -/
def sectionStart : Str → Bool
  | '#' :: '#' :: '#' :: c :: _ => isWs c
  | _ => false

/-- Split at every newline that is immediately followed by `###` plus a
whitespace character (the separator newline is consumed, the lookahead text
kept), accumulating the current piece in reverse. -/
def splitSectionsAux : Str → Str → List Str
  | [], acc => [acc.reverse]
  | c :: rest, acc =>
    if c = '\n' ∧ sectionStart rest = true then
      acc.reverse :: splitSectionsAux rest []
    else splitSectionsAux rest (c :: acc)

/-- Embedding of `splitSummaryIntoSections` (lines 641-652): trim the
summary; if empty return no sections; split at section boundaries
(`/\n(?=###\s)/`), trim each piece and drop empty pieces; if nothing
remains, fall back to the whole trimmed summary. -/
def splitSummaryIntoSections (summary : Str) : List Str :=
  let trimmed := jsTrim summary
  if trimmed.isEmpty then []
  else
    let sections := ((splitSectionsAux trimmed []).map jsTrim).filter
      (fun s => !s.isEmpty)
    if sections.isEmpty then [trimmed] else sections

/-- The part of the message header shared by the first message and the
continuation messages. -/
def headerBase (title : Str) (recordedUsers : List Str) : Str :=
  lit "**" ++ title ++ lit "**\n\n**Recording finished for:** " ++
    (lit ", ").intercalate recordedUsers ++ lit "\n\n"

/-- The `header` template of `chunkSectionsForDiscord` (line 660). -/
def sectionHeader (title : Str) (recordedUsers : List Str) : Str :=
  headerBase title recordedUsers ++ lit "**Summary:**\n"

/-- The `continuationHeader` template of `chunkSectionsForDiscord`
(line 661). -/
def continuationHeader (title : Str) (recordedUsers : List Str) : Str :=
  headerBase title recordedUsers ++ lit "**Summary (continued):**\n"

/-- `current.endsWith('\n')`. -/
def endsWithNl (s : Str) : Bool :=
  match s.getLast? with
  | some c => c = '\n'
  | none => false

/-- The section loop of `chunkSectionsForDiscord` (lines 669-697): grow the
current message while the candidate stays within the limit; otherwise commit
the current message and start a continuation message from the section.  (In
the source the overflow case is written as two branches whose bodies are
identical.)  At the end the current message is committed unless it is still
a bare header. -/
def chunkLoop (limit : Nat) (header contHeader : Str) :
    List Str → Str → List Str
  | [], current =>
    if current = header ∨ current = contHeader then [] else [current]
  | s :: rest, current =>
    let sep : Str := if endsWithNl current then [] else lit "\n\n"
    let cand := current ++ sep ++ s
    if cand.length ≤ limit then chunkLoop limit header contHeader rest cand
    else current :: chunkLoop limit header contHeader rest (contHeader ++ s)

/-- Embedding of `chunkSectionsForDiscord` (lines 654-699): fast path when
the whole message fits in the limit, otherwise build messages from whole
sections only. -/
def chunkSectionsForDiscord (title : Str) (recordedUsers : List Str)
    (summary : Str) (limit : Nat) : List Str :=
  let header := sectionHeader title recordedUsers
  let contHeader := continuationHeader title recordedUsers
  let sections := splitSummaryIntoSections summary
  let fullMessage := header ++ summary
  if fullMessage.length ≤ limit then [fullMessage]
  else chunkLoop limit header contHeader sections header

/-!
## Session registry and finalization pipeline
(`src/voiceStateManager.ts`, second revision)
-/

-- Per-guild recording data (`voiceStateManager.ts`, interface
-- `RecordingData`); the voice connection handle is outside the model.
structure RecordingData where
  channelId : String
  channelName : Str
  recordable : List String
  recording : List String
  isManualRecording : Bool
  deriving DecidableEq, Repr

/-- The process-wide `activeRecordings` map, in insertion order. -/
abbrev Registry := List (String × RecordingData)

/-- Embedding of `isRecording` (lines 944-946). -/
def isRecording (guildId : String) (reg : Registry) : Bool :=
  (lookupA guildId reg).isSome

/-- Number of active sessions (`activeRecordings.size`). -/
def activeCount (reg : Registry) : Nat := reg.length

/-- Embedding of `startManualRecording` (lines 958-1020): a no-op when the
guild already has an active recording; otherwise wait for the connection to
become ready (`connReady` models whether `entersState` succeeds within its
20s bound — on failure nothing is stored) and store fresh recording data
with every present human member recordable and nobody recording. -/
def startManualRecording (guildId channelId : String) (channelName : Str)
    (humanMembers : List String) (connReady : Bool) (reg : Registry) :
    Registry :=
  if isRecording guildId reg then reg
  else if !connReady then reg
  else reg ++ [(guildId,
    { channelId := channelId
      channelName := channelName
      recordable := humanMembers
      recording := []
      isManualRecording := true })]

/-- A payload delivered to the output channel: a plain message, or a message
carrying a file attachment. -/
inductive SentMsg where
  | message (content : Str)
  | file (content : Str) (fileBody : Str)
  deriving DecidableEq, Repr

/-- Is this payload a file attachment? -/
def SentMsg.isFile : SentMsg → Bool
  | .message _ => false
  | .file _ _ => true

/-- The text content of a payload. -/
def SentMsg.content : SentMsg → Str
  | .message c => c
  | .file c _ => c

/-- Embedding of the notification text of `sendStopRecordingNotification`
(lines 929-933); the wall-clock duration figures are elided.  Note the text
carries no transcript content and no attachment. -/
def stopNoticeText (channelName : Str) : Str :=
  lit "⏹️ Recording stopped in " ++ channelName ++
    lit "\nGenerating transcript and summary... please wait."

/-- The deterministic fallback title of `generateTitle` (lines 597, 633,
637); the wall-clock date is elided. -/
def fallbackTitle : Str := lit "Meeting Transcript"

/-- Embedding of `generateTitle` (lines 594-639) at its interface boundary:
the collaborator either produces a title or fails, and on failure the
deterministic fallback is substituted. -/
def generateTitleM (mkTitle : Str → Option Str) (summary : Str) : Str :=
  (mkTitle summary).getD fallbackTitle

/-- Embedding of the delivery part of `sendTranscriptAndSummary` (lines
722-755): the summary is chunked at section boundaries into one or more
messages, then the full transcript goes out as a file attachment. -/
def sendTranscriptAndSummaryMsgs (title : Str) (recordedUsers : List Str)
    (transcript summary : Str) : List SentMsg :=
  (chunkSectionsForDiscord title recordedUsers summary 1950).map .message
    ++ [SentMsg.file (lit "**Full Transcript:**")
          (lit "# " ++ title ++ lit "\n\n" ++ transcript)]

/-- Embedding of `stopRecording` (lines 774-873) over the registry and the
accumulator store, with the summarization and title collaborators as
function parameters.  A no-op when the guild has no active recording.
Otherwise: the recording set is cleared and the guild is removed from the
registry before any collaborator is invoked; then the transcript is drained.
With no transcript, or with a failed summarization, only the generic stop
notification is sent.  Otherwise the title is produced (with fallback) and
the summary messages plus the transcript file are sent.  Recorded users are
reported by id here (display-name resolution via the Discord cache is
outside the model). -/
def stopRecording (guildId : String) (reg : Registry) (ts : TState)
    (summarize : Str → Option Str) (mkTitle : Str → Option Str) :
    Registry × TState × List SentMsg :=
  match lookupA guildId reg with
  | none => (reg, ts, [])
  | some rd =>
    let reg' := eraseA guildId reg
    let recordedUsers := rd.recordable.map lit
    match generateTranscript guildId ts with
    | (none, ts') => (reg', ts', [.message (stopNoticeText rd.channelName)])
    | (some transcript, ts') =>
      match summarize transcript with
      | none => (reg', ts', [.message (stopNoticeText rd.channelName)])
      | some summary =>
        let title := generateTitleM mkTitle summary
        (reg', ts',
          sendTranscriptAndSummaryMsgs title recordedUsers transcript summary)

/-!
## Session speaking/membership events and the recording sets
(`setupRecording`, lines 665-769, and `stopRecording` line 794)
-/

-- The per-session `recordable` and `recording` sets.
structure SessionSets where
  recordable : List String
  recording : List String
  deriving DecidableEq, Repr

/-- Session-scoped events touching the two sets.  `speakStart` carries
whether the webhook/stream setup succeeds (on failure the speaker is removed
from `recording` again); member join/leave events do not mutate the sets in
this revision (joins return early when a recording is active; leaves only
trigger a stop check). -/
inductive SessEv where
  | speakStart (userId : String) (setupOk : Bool)
  | streamCleanup (userId : String)
  | memberJoin (userId : String)
  | memberLeave (userId : String)
  | stopClear
  deriving DecidableEq, Repr

/-- Insert into a `Set` (`add`): a no-op when already present. -/
def setAdd (u : String) (s : List String) : List String :=
  if u ∈ s then s else s ++ [u]

/-- One event against the session sets, as the handlers in
`setupRecording` (speaking-start guarded by `recordable.has` and
`recording.has`, error path deleting again), `createListeningStream`'s
cleanup (`recording.delete`) and `stopRecording` (`recording.clear`)
perform it. -/
def sessStep (st : SessionSets) : SessEv → SessionSets
  | .speakStart u ok =>
    if u ∈ st.recordable then
      if u ∈ st.recording then st
      else
        let st' := { st with recording := setAdd u st.recording }
        if ok then st' else { st' with recording := st'.recording.erase u }
    else st
  | .streamCleanup u => { st with recording := st.recording.erase u }
  | .memberJoin _ => st
  | .memberLeave _ => st
  | .stopClear => { st with recording := [] }

/-- Replay a sequence of session events. -/
def runSess (st : SessionSets) (evs : List SessEv) : SessionSets :=
  evs.foldl sessStep st

/-!
## Speaker-stream cleanup latch (`src/createListeningStream.ts`)
-/

-- State of one speaker stream: the one-shot latch `hasCleanedUp`, the
-- session's `recording` set, the Deepgram connection's ready state
-- (1 = OPEN as in the source's `getReadyState() === 1` checks; finishing
-- moves the websocket out of OPEN, the close event means it is closed),
-- and instrumentation counters for `finish()` calls and cleanup-body runs.
structure StreamState where
  hasCleanedUp : Bool
  recording : List String
  readyState : Nat
  finishCount : Nat
  cleanupRuns : Nat
  deriving DecidableEq, Repr

/-- `deepgramLive.finish()`: counted, and the websocket leaves the OPEN
state (it starts closing). -/
def finishConn (s : StreamState) : StreamState :=
  { s with finishCount := s.finishCount + 1, readyState := 2 }

/-- Embedding of the `cleanup` closure (`createListeningStream.ts` lines
46-71): return immediately when the latch is set; otherwise set the latch,
remove the speaker from the recording set, and finish the Deepgram
connection if it is still open (`getReadyState() === 1`). -/
def cleanup (userId : String) (s : StreamState) : StreamState :=
  if s.hasCleanedUp then s
  else if s.readyState = 1 then
    finishConn { s with hasCleanedUp := true, cleanupRuns := s.cleanupRuns + 1,
                        recording := s.recording.erase userId }
  else { s with hasCleanedUp := true, cleanupRuns := s.cleanupRuns + 1,
                recording := s.recording.erase userId }

/-- The termination signals wired to cleanup in `createListeningStream`:
the recording pipeline ending, the Deepgram close event, the opus stream's
end event (whose handler first finishes the connection itself if still
open), and the process signals. -/
inductive StreamEv where
  | pipelineEnd
  | providerClose
  | audioEnd
  | sigint
  | sigterm
  deriving DecidableEq, Repr

/-- One termination signal, as the handlers process it. -/
def streamStep (userId : String) (s : StreamState) : StreamEv → StreamState
  | .pipelineEnd => cleanup userId s
  | .providerClose => cleanup userId { s with readyState := 3 }
  | .audioEnd =>
    cleanup userId (if s.readyState = 1 then finishConn s else s)
  | .sigint => cleanup userId s
  | .sigterm => cleanup userId s

/-- Replay a sequence of termination signals. -/
def runStream (userId : String) (s : StreamState) (evs : List StreamEv) :
    StreamState :=
  evs.foldl (streamStep userId) s

/-- The state of a freshly opened speaker stream: latch unset, connection
open, no finish issued yet. -/
def initStream (recording : List String) : StreamState :=
  { hasCleanedUp := false, recording := recording, readyState := 1,
    finishCount := 0, cleanupRuns := 0 }

/-!
## Theorems
-/

theorem mem_setAdd {x u : String} {s : List String} :
    x ∈ setAdd u s ↔ x ∈ s ∨ x = u := by
  unfold setAdd
  split
  · constructor
    · exact fun h => Or.inl h
    · rintro (h | rfl) <;> assumption
  · simp [List.mem_append]

theorem sessStep_recordable (st : SessionSets) (ev : SessEv) :
    (sessStep st ev).recordable = st.recordable := by
  cases ev <;> (simp only [sessStep]; repeat first | rfl | split)

theorem sessStep_subset (st : SessionSets) (ev : SessEv)
    (h : st.recording ⊆ st.recordable) :
    (sessStep st ev).recording ⊆ (sessStep st ev).recordable := by
  have hrec := sessStep_recordable st ev
  rw [hrec]
  cases ev with
  | speakStart u ok =>
    simp only [sessStep]
    split
    · split
      · exact h
      · split
        · intro x hx
          rcases mem_setAdd.mp hx with hx' | rfl
          · exact h hx'
          · assumption
        · intro x hx
          have hx' := List.erase_subset _ _ hx
          rcases mem_setAdd.mp hx' with hx'' | rfl
          · exact h hx''
          · assumption
    · exact h
  | streamCleanup u =>
    intro x hx
    exact h (List.erase_subset _ _ hx)
  | memberJoin u => exact h
  | memberLeave u => exact h
  | stopClear => simp [sessStep]

theorem runSess_subset (evs : List SessEv) (st : SessionSets)
    (h : st.recording ⊆ st.recordable) :
    (runSess st evs).recording ⊆ (runSess st evs).recordable := by
  induction evs generalizing st with
  | nil => exact h
  | cons ev rest ih =>
    simpa [runSess, List.foldl_cons] using
      ih (sessStep st ev) (sessStep_subset st ev h)

/-- C1: over every sequence of join/leave/speaking/cleanup/stop events
processed by the session's handlers, the `recording` set stays a subset of
the `recordable` set: speaking-start adds a speaker to `recording` only
under the `recordable.has(userId)` guard, and removals (stream cleanup,
error paths, `recording.clear()`) never break the inclusion. -/
theorem recording_subset_recordable (recordable0 : List String)
    (evs : List SessEv) :
    (runSess ⟨recordable0, []⟩ evs).recording
      ⊆ (runSess ⟨recordable0, []⟩ evs).recordable :=
  runSess_subset evs ⟨recordable0, []⟩ (by intro x hx; cases hx)

/-- The invariant maintained by the speaker-stream state: the cleanup body
has run at most once (and not at all while the latch is unset), and the
provider connection has been finished at most once (never while it still
reports open). -/
def StreamInv (s : StreamState) : Prop :=
  s.cleanupRuns ≤ 1 ∧ (s.hasCleanedUp = false → s.cleanupRuns = 0) ∧
    s.finishCount ≤ 1 ∧ (s.readyState = 1 → s.finishCount = 0)

theorem cleanup_inv (u : String) (s : StreamState) (h : StreamInv s) :
    StreamInv (cleanup u s) := by
  obtain ⟨h1, h2, h3, h4⟩ := h
  unfold cleanup
  split
  · exact ⟨h1, h2, h3, h4⟩
  · rename_i hcl
    have hruns : s.cleanupRuns = 0 := h2 (by
      cases hsc : s.hasCleanedUp
      · rfl
      · exact absurd hsc hcl)
    split
    · rename_i hrs
      have hfin : s.finishCount = 0 := h4 hrs
      refine ⟨by simp [finishConn, hruns], by intro hf; simp [finishConn] at hf,
        by simp [finishConn, hfin], by intro hr; simp [finishConn] at hr⟩
    · rename_i hrs
      exact ⟨by simp [hruns], by intro hf; simp at hf, h3, by
        intro hr; exact h4 hr⟩

theorem streamStep_inv (u : String) (s : StreamState) (ev : StreamEv)
    (h : StreamInv s) : StreamInv (streamStep u s ev) := by
  obtain ⟨h1, h2, h3, h4⟩ := h
  cases ev with
  | pipelineEnd => exact cleanup_inv u s ⟨h1, h2, h3, h4⟩
  | providerClose =>
    exact cleanup_inv u _ ⟨h1, h2, h3, by intro hr; simp at hr⟩
  | audioEnd =>
    apply cleanup_inv
    split
    · rename_i hrs
      have hfin : s.finishCount = 0 := h4 hrs
      exact ⟨h1, h2, by simp [finishConn, hfin], by
        intro hr; simp [finishConn] at hr⟩
    · exact ⟨h1, h2, h3, h4⟩
  | sigint => exact cleanup_inv u s ⟨h1, h2, h3, h4⟩
  | sigterm => exact cleanup_inv u s ⟨h1, h2, h3, h4⟩

theorem runStream_inv (u : String) (evs : List StreamEv) (s : StreamState)
    (h : StreamInv s) : StreamInv (runStream u s evs) := by
  induction evs generalizing s with
  | nil => exact h
  | cons ev rest ih =>
    simpa [runStream, List.foldl_cons] using
      ih (streamStep u s ev) (streamStep_inv u s ev h)

/-- C8: starting from a freshly opened speaker stream, no matter which
termination signals arrive (pipeline end, provider close, audio-stream end,
process signals) and in which order, the cleanup body runs at most once —
guarded by the `hasCleanedUp` one-shot latch — and at most one `finish()`
is ever issued against the provider connection. -/
theorem cleanup_at_most_once (userId : String) (recording0 : List String)
    (evs : List StreamEv) :
    (runStream userId (initStream recording0) evs).cleanupRuns ≤ 1 ∧
      (runStream userId (initStream recording0) evs).finishCount ≤ 1 := by
  have h := runStream_inv userId evs (initStream recording0)
    ⟨by simp [initStream], by simp [initStream], by simp [initStream],
      by simp [initStream]⟩
  exact ⟨h.1, h.2.2.1⟩

theorem lookupA_eraseA {V : Type} (k : String) (m : List (String × V)) :
    lookupA k (eraseA k m) = none := by
  induction m with
  | nil => rfl
  | cons p rest ih =>
    by_cases hp : p.1 = k
    · simpa [eraseA, hp, List.filter] using ih
    · simpa [eraseA, List.filter, hp, lookupA] using ih

/-- C2: draining a guild whose accumulator holds data returns the rendered
document and clears the guild's fragment store, so a second drain with no
intervening appends yields no document (`null`, the code's empty result)
and leaves the store unchanged. -/
theorem drain_single_use (guildId : String) (st : TState)
    (users : List TranscriptData) (h1 : lookupA guildId st = some users)
    (h2 : users ≠ []) :
    generateTranscript guildId st = (some (drainedDoc users), eraseA guildId st)
      ∧ generateTranscript guildId (eraseA guildId st)
          = (none, eraseA guildId st) := by
  constructor
  · simp [generateTranscript, h1, List.isEmpty_iff, h2]
  · simp [generateTranscript, lookupA_eraseA]

theorem drain_single_use_witness :
    generateTranscript "g"
        (addTranscriptMessage "g" "u" (lit "Al") (lit "hi") 1 [])
      = (some (drainedDoc [⟨"u", lit "Al", [⟨lit "hi", 1⟩]⟩]),
          eraseA "g" (addTranscriptMessage "g" "u" (lit "Al") (lit "hi") 1 []))
    ∧ generateTranscript "g"
        (eraseA "g" (addTranscriptMessage "g" "u" (lit "Al") (lit "hi") 1 []))
      = (none, eraseA "g" (addTranscriptMessage "g" "u" (lit "Al") (lit "hi") 1 [])) :=
  drain_single_use "g" (addTranscriptMessage "g" "u" (lit "Al") (lit "hi") 1 [])
    [⟨"u", lit "Al", [⟨lit "hi", 1⟩]⟩] (by decide) (by decide)

/-- The five-session registry used to exhibit the absence of a global
concurrency cap. -/
def reg5 : Registry :=
  [("g1", ⟨"c1", lit "ch1", [], [], true⟩),
   ("g2", ⟨"c2", lit "ch2", [], [], true⟩),
   ("g3", ⟨"c3", lit "ch3", [], [], true⟩),
   ("g4", ⟨"c4", lit "ch4", [], [], true⟩),
   ("g5", ⟨"c5", lit "ch5", [], [], true⟩)]

/-- C4 counterexample: with five sessions already active (the claimed
default maximum), a `startManualRecording` for a sixth guild is accepted,
so the number of active sessions exceeds five — the code enforces no
global concurrency cap. -/
theorem start_exceeds_claimed_cap :
    activeCount reg5 = 5 ∧
      activeCount (startManualRecording "g6" "c6" (lit "ch6") ["u1", "u2"]
        true reg5) = 6 := by
  decide

/-- C4 amended: `startManualRecording` for a guild with an active session
is an idempotent no-op with no side effects, and a start for a new guild
(whose connection becomes ready) always succeeds, growing the active count
by one regardless of how many sessions are already active — there is no
global concurrency cap. -/
theorem start_session_no_cap (guildId channelId : String) (channelName : Str)
    (humanMembers : List String) (reg : Registry) :
    (isRecording guildId reg = true →
      startManualRecording guildId channelId channelName humanMembers true reg
        = reg) ∧
    (isRecording guildId reg = false →
      activeCount (startManualRecording guildId channelId channelName
        humanMembers true reg) = activeCount reg + 1) := by
  constructor
  · intro h
    simp [startManualRecording, h]
  · intro h
    simp [startManualRecording, h, activeCount]

theorem start_session_no_cap_witness :
    startManualRecording "g1" "c" (lit "ch") [] true reg5 = reg5 ∧
      activeCount (startManualRecording "g6" "c" (lit "ch") [] true reg5)
        = activeCount reg5 + 1 :=
  ⟨(start_session_no_cap "g1" "c" (lit "ch") [] reg5).1 (by decide),
   (start_session_no_cap "g6" "c" (lit "ch") [] reg5).2 (by decide)⟩

/-- C5: `stopRecording` is idempotent.  With no active session for the
guild it is a no-op that changes neither the registry nor the accumulator
store and sends nothing; after any `stopRecording` the guild is no longer
active; and a second `stopRecording` right after a first one changes
nothing and sends nothing, so two calls are observationally equivalent to
one. -/
theorem stop_noop_of_not_active (guildId : String) (reg : Registry)
    (ts : TState) (summarize mkTitle : Str → Option Str)
    (h : lookupA guildId reg = none) :
    stopRecording guildId reg ts summarize mkTitle = (reg, ts, []) := by
  simp [stopRecording, h]

theorem stop_recording_idempotent (guildId : String) (reg : Registry)
    (ts : TState) (summarize mkTitle : Str → Option Str) :
    (isRecording guildId reg = false →
      stopRecording guildId reg ts summarize mkTitle = (reg, ts, [])) ∧
    isRecording guildId
      (stopRecording guildId reg ts summarize mkTitle).1 = false ∧
    stopRecording guildId (stopRecording guildId reg ts summarize mkTitle).1
        (stopRecording guildId reg ts summarize mkTitle).2.1 summarize mkTitle
      = ((stopRecording guildId reg ts summarize mkTitle).1,
         (stopRecording guildId reg ts summarize mkTitle).2.1, []) := by
  cases hl : lookupA guildId reg with
  | none =>
    have hstop := stop_noop_of_not_active guildId reg ts summarize mkTitle hl
    refine ⟨fun _ => hstop, ?_, ?_⟩
    · simp [hstop, isRecording, hl]
    · rw [hstop]
      exact stop_noop_of_not_active guildId reg ts summarize mkTitle hl
  | some rd =>
    have hfst : (stopRecording guildId reg ts summarize mkTitle).1
        = eraseA guildId reg := by
      cases hgt : generateTranscript guildId ts with
      | mk tr ts' =>
        cases tr with
        | none => simp [stopRecording, hl, hgt]
        | some transcript =>
          cases hs : summarize transcript with
          | none => simp [stopRecording, hl, hgt, hs]
          | some summary => simp [stopRecording, hl, hgt, hs]
    have hactive : isRecording guildId
        (stopRecording guildId reg ts summarize mkTitle).1 = false := by
      simp [hfst, isRecording, lookupA_eraseA]
    refine ⟨fun hno => ?_, hactive, ?_⟩
    · simp [isRecording, hl] at hno
    · have hnone : lookupA guildId
          (stopRecording guildId reg ts summarize mkTitle).1 = none := by
        simp [hfst, lookupA_eraseA]
      exact stop_noop_of_not_active guildId _ _ summarize mkTitle hnone

theorem stop_recording_idempotent_witness :
    stopRecording "g" [] [] (fun _ => none) (fun _ => none)
      = ([], [], []) :=
  (stop_recording_idempotent "g" [] [] (fun _ => none) (fun _ => none)).1
    (by decide)

/-- A one-session registry for the summarization-failure scenario. -/
def c6reg : Registry := [("g", ⟨"c1", lit "general", ["u1"], [], false⟩)]

/-- An accumulator store holding one spoken fragment for that session. -/
def c6ts : TState := [("g", [⟨"u1", lit "Al", [⟨lit "hello there", 1⟩]⟩])]

/-- C6 counterexample: the session drains a non-empty document, the
summarization collaborator fails, and the pipeline delivers only the
generic "Recording stopped" notice — no message contains the raw
transcript and no file attachment is sent, contrary to the claim. -/
theorem summary_failure_no_transcript_fallback :
    (generateTranscript "g" c6ts).1.isSome = true ∧
    (stopRecording "g" c6reg c6ts (fun _ => none) (fun _ => none)).2.2
      = [.message (stopNoticeText (lit "general"))] ∧
    ((stopRecording "g" c6reg c6ts (fun _ => none) (fun _ => none)).2.2.all
      (fun m => !m.isFile)) = true := by
  decide

/-- C6 amended: when the drained document is non-empty and the
summarization collaborator fails, the pipeline sends exactly one generic
"Recording stopped" notice — without the raw transcript and without a file
attachment — does not retry, and cleanup still completes: the guild is no
longer active afterwards. -/
theorem summarize_failure_sends_notice_only (guildId : String)
    (reg : Registry) (ts : TState) (mkTitle : Str → Option Str)
    (rd : RecordingData) (tr : Str) (ts' : TState)
    (h1 : lookupA guildId reg = some rd)
    (h2 : generateTranscript guildId ts = (some tr, ts'))
    (summarize : Str → Option Str) (h3 : summarize tr = none) :
    stopRecording guildId reg ts summarize mkTitle
      = (eraseA guildId reg, ts', [.message (stopNoticeText rd.channelName)])
    ∧ isRecording guildId (eraseA guildId reg) = false := by
  constructor
  · simp [stopRecording, h1, h2, h3]
  · simp [isRecording, lookupA_eraseA]

theorem summarize_failure_sends_notice_only_witness :
    stopRecording "g" c6reg c6ts (fun _ => none) (fun _ => none)
      = (eraseA "g" c6reg, eraseA "g" c6ts,
         [.message (stopNoticeText (lit "general"))])
    ∧ isRecording "g" (eraseA "g" c6reg) = false :=
  summarize_failure_sends_notice_only "g" c6reg c6ts (fun _ => none)
    ⟨"c1", lit "general", ["u1"], [], false⟩
    (drainedDoc [⟨"u1", lit "Al", [⟨lit "hello there", 1⟩]⟩])
    (eraseA "g" c6ts) (by decide) (by decide) (fun _ => none) (by decide)

theorem wapHead_not_w (c : Char) (t : Str) (h : c.toLower ≠ 'w') :
    wapHead (c :: t) = false := by
  rcases t with _ | ⟨d, _ | ⟨e, t'⟩⟩
  · rfl
  · rfl
  · simp [wapHead, wapMatch, h]

theorem wapHead_not_a (c1 c2 : Char) (t : Str) (h : c2.toLower ≠ 'a') :
    wapHead (c1 :: c2 :: t) = false := by
  rcases t with _ | ⟨e, t'⟩
  · rfl
  · simp [wapHead, wapMatch, h]

theorem wapHead_not_p (c1 c2 c3 : Char) (t : Str)
    (h : c3.toLower ≠ 'p') : wapHead (c1 :: c2 :: c3 :: t) = false := by
  simp [wapHead, wapMatch, h]

theorem replaceWAP_head (c : Char) (rest : Str) :
    replaceWAP (c :: rest) = c :: replaceWAP rest ∨
      (c.toLower = 'w' ∧
        ∃ t, replaceWAP (c :: rest) = 'W' :: 'h' :: 'o' :: 'p' :: t) := by
  rcases rest with _ | ⟨d, _ | ⟨e, r⟩⟩
  · left; rfl
  · left; rfl
  · by_cases hm : wapMatch c d e = true
    · right
      refine ⟨?_, replaceWAP r, ?_⟩
      · have hm' := hm
        simp only [wapMatch, Bool.and_eq_true, decide_eq_true_eq] at hm'
        exact hm'.1.1
      · simp [replaceWAP, hm]
        rfl
    · left
      simp [replaceWAP, hm]

theorem containsWapCI_replaceWAP_len :
    ∀ (n : Nat) (s : Str), s.length ≤ n →
      containsWapCI (replaceWAP s) = false := by
  intro n
  induction n with
  | zero =>
    intro s hs
    have hnil : s = [] := List.eq_nil_of_length_eq_zero (Nat.le_zero.mp hs)
    subst hnil
    rfl
  | succ n ih =>
    intro s hs
    rcases s with _ | ⟨c1, _ | ⟨c2, _ | ⟨c3, rest⟩⟩⟩
    · rfl
    · rfl
    · rfl
    · by_cases hm : wapMatch c1 c2 c3 = true
      · have hrw : replaceWAP (c1 :: c2 :: c3 :: rest)
            = 'W' :: 'h' :: 'o' :: 'p' :: replaceWAP rest := by
          simp [replaceWAP, hm]; rfl
        rw [hrw]
        have e1 := wapHead_not_a 'W' 'h' ('o' :: 'p' :: replaceWAP rest)
          (by decide)
        have e2 := wapHead_not_w 'h' ('o' :: 'p' :: replaceWAP rest)
          (by decide)
        have e3 := wapHead_not_w 'o' ('p' :: replaceWAP rest) (by decide)
        have e4 := wapHead_not_w 'p' (replaceWAP rest) (by decide)
        have e5 := ih rest (by simp at hs; omega)
        simp [containsWapCI, e1, e2, e3, e4, e5]
      · have hrw : replaceWAP (c1 :: c2 :: c3 :: rest)
            = c1 :: replaceWAP (c2 :: c3 :: rest) := by
          simp [replaceWAP, hm]
        rw [hrw]
        have etail : containsWapCI (replaceWAP (c2 :: c3 :: rest)) = false :=
          ih (c2 :: c3 :: rest) (by simp at hs ⊢; omega)
        have ehead : wapHead (c1 :: replaceWAP (c2 :: c3 :: rest)) = false := by
          rcases replaceWAP_head c2 (c3 :: rest) with h2 | ⟨hw2, t2, h2⟩
          · rw [h2]
            by_cases ha : c2.toLower = 'a'
            · rcases replaceWAP_head c3 rest with h3 | ⟨hw3, t3, h3⟩
              · rw [h3]
                have : wapMatch c1 c2 c3 = false := by
                  simpa using hm
                simp [wapHead, this]
              · rw [h3]
                exact wapHead_not_p c1 c2 'W' _ (by decide)
            · exact wapHead_not_a c1 c2 _ ha
          · rw [h2]
            exact wapHead_not_a c1 'W' _ (by decide)
        simp [containsWapCI, ehead, etail]

theorem containsWapCI_replaceWAP (s : Str) :
    containsWapCI (replaceWAP s) = false :=
  containsWapCI_replaceWAP_len s.length s le_rfl

/-- C9: whenever `generateTranscript` produces a document, that document is
the rendered, trimmed transcript with the case-insensitive `WAP → Whop`
rewrite applied to the whole text (all speakers alike), so no
case-insensitive occurrence of `WAP` — `wap`, `Wap`, or inside a longer
word — survives in it; and the guild's fragment store is cleared. -/
theorem drained_doc_wap_rewritten (guildId : String) (st : TState)
    (doc : Str) (st' : TState)
    (h : generateTranscript guildId st = (some doc, st')) :
    (∃ users, lookupA guildId st = some users ∧
      doc = replaceWAP (jsTrim (renderTranscript (sortMsgs
        (collectMsgs users))))) ∧
    containsWapCI doc = false ∧
    lookupA guildId st' = none := by
  cases hl : lookupA guildId st with
  | none => simp [generateTranscript, hl] at h
  | some users =>
    by_cases he : users.isEmpty
    · simp [generateTranscript, hl, he] at h
    · simp only [generateTranscript, hl, he, if_false, Bool.false_eq_true,
        if_neg, Prod.mk.injEq, Option.some.injEq] at h
      obtain ⟨hdoc, hst⟩ := h
      have hdoc' : doc = drainedDoc users := hdoc.symm
      refine ⟨⟨users, rfl, hdoc'⟩, ?_, ?_⟩
      · rw [hdoc']
        exact containsWapCI_replaceWAP _
      · rw [← hst]
        exact lookupA_eraseA guildId st

/-- A concrete single-speaker user map whose fragment text contains several
case variants of `wap`. -/
def c9users : List TranscriptData := [⟨"u", lit "Al", [⟨lit "wap Wap swap", 2⟩]⟩]

/-- The accumulator store holding `c9users` under guild `g`. -/
def c9ts : TState := [("g", c9users)]

theorem drained_doc_wap_rewritten_witness :
    (∃ users, lookupA "g" c9ts = some users ∧
      drainedDoc c9users
        = replaceWAP (jsTrim (renderTranscript (sortMsgs
            (collectMsgs users))))) ∧
    containsWapCI (drainedDoc c9users) = false ∧
    lookupA "g" (eraseA "g" c9ts) = none :=
  drained_doc_wap_rewritten "g" c9ts (drainedDoc c9users) (eraseA "g" c9ts)
    (by decide)

theorem jsTrim_wrap (c d : Char) (mid : Str) (hc : isWs c = false)
    (hd : isWs d = false) :
    jsTrim ('\n' :: '\n' :: c :: (mid ++ [d, ' '])) = c :: (mid ++ [d]) := by
  have h1 : isWs '\n' = true := by decide
  have h2 : isWs ' ' = true := by decide
  unfold jsTrim
  rw [show ('\n' :: '\n' :: c :: (mid ++ [d, ' '])).dropWhile isWs
      = c :: (mid ++ [d, ' ']) from by
    simp [List.dropWhile_cons, h1, hc]]
  rw [show (c :: (mid ++ [d, ' '])).reverse
      = ' ' :: d :: (mid.reverse ++ [c]) from by simp]
  rw [show (' ' :: d :: (mid.reverse ++ [c])).dropWhile isWs
      = d :: (mid.reverse ++ [c]) from by
    simp [List.dropWhile_cons, h2, hd]]
  simp

/-- C10: speaker-attribution grouping keys on the display name, not the
user identifier.  For two fragments from distinct user ids sharing one
display name and adjacent after sorting, the drained document contains a
single shared `Speaker @` header with both texts under it. -/
theorem grouping_keys_on_display_name (u1 u2 : String) (name : Str)
    (h : u1 ≠ u2) (hn : name ≠ []) :
    (generateTranscript "g"
      (addTranscriptMessage "g" u2 name (lit "world") 2
        (addTranscriptMessage "g" u1 name (lit "hello") 1 []))).1
    = some (replaceWAP (lit "Speaker @" ++ name ++ lit ": hello world")) := by
  have hstate : addTranscriptMessage "g" u2 name (lit "world") 2
      (addTranscriptMessage "g" u1 name (lit "hello") 1 [])
      = [("g", [⟨u1, name, [⟨lit "hello", 1⟩]⟩,
                ⟨u2, name, [⟨lit "world", 2⟩]⟩])] := by
    simp [addTranscriptMessage, addToGuild, pushMessage, h]
  rw [hstate]
  have hcollect : collectMsgs [⟨u1, name, [⟨lit "hello", 1⟩]⟩,
      ⟨u2, name, [⟨lit "world", 2⟩]⟩]
      = [⟨u1, name, lit "hello", 1⟩, ⟨u2, name, lit "world", 2⟩] := by
    simp [collectMsgs]
  have hsort : sortMsgs [⟨u1, name, lit "hello", 1⟩,
      ⟨u2, name, lit "world", 2⟩]
      = [⟨u1, name, lit "hello", 1⟩, ⟨u2, name, lit "world", 2⟩] := by
    simp [sortMsgs, insertByTs]
  have hrender : renderTranscript [⟨u1, name, lit "hello", 1⟩,
      ⟨u2, name, lit "world", 2⟩]
      = lit "\n\nSpeaker @" ++ (name ++ (lit ": " ++ (lit "hello"
          ++ (lit " " ++ (lit "world" ++ lit " "))))) := by
    simp [renderTranscript, renderGo, hn]
  have htrim : jsTrim (lit "\n\nSpeaker @" ++ (name ++ (lit ": "
        ++ (lit "hello" ++ (lit " " ++ (lit "world" ++ lit " "))))))
      = lit "Speaker @" ++ (name ++ lit ": hello world") := by
    have key := jsTrim_wrap 'S' 'd'
      (lit "peaker @" ++ name ++ lit ": hello worl") (by decide) (by decide)
    have eArg : lit "\n\nSpeaker @" ++ (name ++ (lit ": " ++ (lit "hello"
          ++ (lit " " ++ (lit "world" ++ lit " ")))))
        = '\n' :: '\n' :: 'S'
            :: ((lit "peaker @" ++ name ++ lit ": hello worl")
                  ++ ['d', ' ']) := by
      have p1 : (lit "\n\nSpeaker @" : Str)
          = '\n' :: '\n' :: 'S' :: lit "peaker @" := rfl
      have p2 : (lit ": " : Str) ++ (lit "hello" ++ (lit " "
            ++ (lit "world" ++ lit " ")))
          = lit ": hello worl" ++ ['d', ' '] := rfl
      rw [p1]
      simp only [List.cons_append, List.append_assoc]
      rw [p2]
    have eRes : ('S' : Char)
          :: ((lit "peaker @" ++ name ++ lit ": hello worl") ++ ['d'])
        = lit "Speaker @" ++ (name ++ lit ": hello world") := by
      have p3 : (lit "Speaker @" : Str) = 'S' :: lit "peaker @" := rfl
      have p4 : (lit ": hello worl" : Str) ++ ['d']
          = lit ": hello world" := rfl
      rw [p3]
      simp only [List.cons_append, List.append_assoc]
      rw [← p4]
    rw [eArg, key, eRes]
  simp [generateTranscript, lookupA, drainedDoc, hcollect, hsort, hrender,
    htrim, List.append_assoc]

theorem grouping_keys_on_display_name_witness :
    (generateTranscript "g"
      (addTranscriptMessage "g" "2" (lit "Al") (lit "world") 2
        (addTranscriptMessage "g" "1" (lit "Al") (lit "hello") 1 []))).1
    = some (replaceWAP (lit "Speaker @" ++ lit "Al"
        ++ lit ": hello world")) :=
  grouping_keys_on_display_name "1" "2" (lit "Al") (by decide) (by decide)

theorem renderGo_eq_groups (msgs : List Msg) :
    ∀ cur : Str, renderGo cur msgs = renderGroupsCont cur (groupRuns msgs) := by
  induction msgs with
  | nil => intro cur; rfl
  | cons m rest ih =>
    intro cur
    rw [show renderGo cur (m :: rest)
        = (if m.displayName ≠ cur then
            lit "\n\nSpeaker @" ++ m.displayName ++ lit ": "
          else []) ++ m.text ++ lit " " ++ renderGo m.displayName rest from rfl,
      ih m.displayName]
    cases hgr : groupRuns rest with
    | nil =>
      simp only [groupRuns, hgr]
      by_cases hc : m.displayName = cur <;>
        simp [renderGroupsCont, renderGroups, renderBlock, hc,
          List.append_assoc]
    | cons g gs =>
      obtain ⟨n, ts0⟩ := g
      simp only [groupRuns, hgr]
      by_cases hmn : m.displayName = n
      · rw [if_pos hmn]
        subst hmn
        by_cases hc : m.displayName = cur <;>
          simp [renderGroupsCont, renderGroups, renderBlock, hc,
            List.append_assoc]
      · rw [if_neg hmn]
        by_cases hc : m.displayName = cur
        · have hnc : n ≠ cur := fun he => hmn (hc.trans he.symm)
          simp [renderGroupsCont, renderGroups, renderBlock, hc, hnc,
            Ne.symm hmn, List.append_assoc]
        · simp [renderGroupsCont, renderGroups, renderBlock, hc,
            Ne.symm hmn, List.append_assoc]

theorem mem_insertByTs {x m : Msg} {l : List Msg} :
    x ∈ insertByTs m l ↔ x = m ∨ x ∈ l := by
  induction l with
  | nil => simp [insertByTs]
  | cons y ys ih =>
    by_cases hy : y.timestamp < m.timestamp
    · simp only [insertByTs, if_pos hy, List.mem_cons, ih]
      tauto
    · simp only [insertByTs, if_neg hy, List.mem_cons]

theorem insertByTs_pairwise (m : Msg) (l : List Msg)
    (h : l.Pairwise (fun a b => a.timestamp ≤ b.timestamp)) :
    (insertByTs m l).Pairwise (fun a b => a.timestamp ≤ b.timestamp) := by
  induction l with
  | nil => simp [insertByTs]
  | cons y ys ih =>
    rw [List.pairwise_cons] at h
    obtain ⟨hy, hys⟩ := h
    by_cases hlt : y.timestamp < m.timestamp
    · rw [insertByTs, if_pos hlt, List.pairwise_cons]
      refine ⟨?_, ih hys⟩
      intro z hz
      rcases mem_insertByTs.mp hz with rfl | hz'
      · exact Nat.le_of_lt hlt
      · exact hy z hz'
    · rw [insertByTs, if_neg hlt, List.pairwise_cons]
      refine ⟨?_, List.pairwise_cons.mpr ⟨hy, hys⟩⟩
      intro z hz
      rcases List.mem_cons.mp hz with rfl | hz'
      · exact Nat.le_of_not_lt hlt
      · exact Nat.le_trans (Nat.le_of_not_lt hlt) (hy z hz')

theorem sortMsgs_pairwise (l : List Msg) :
    (sortMsgs l).Pairwise (fun a b => a.timestamp ≤ b.timestamp) := by
  induction l with
  | nil => simp [sortMsgs]
  | cons m rest ih => exact insertByTs_pairwise m (sortMsgs rest) ih

theorem insertByTs_filter (m : Msg) (l : List Msg) (k : Nat) :
    (insertByTs m l).filter (fun x => decide (x.timestamp = k))
      = if m.timestamp = k then
          m :: l.filter (fun x => decide (x.timestamp = k))
        else l.filter (fun x => decide (x.timestamp = k)) := by
  induction l with
  | nil => by_cases hm : m.timestamp = k <;> simp [insertByTs, hm]
  | cons y ys ih =>
    by_cases hlt : y.timestamp < m.timestamp
    · rw [insertByTs, if_pos hlt]
      by_cases hm : m.timestamp = k
      · have hyk : ¬ y.timestamp = k := by omega
        simp [List.filter, hyk, ih, hm]
      · by_cases hyk : y.timestamp = k <;> simp [List.filter, hyk, ih, hm]
    · rw [insertByTs, if_neg hlt]
      by_cases hm : m.timestamp = k <;>
        by_cases hyk : y.timestamp = k <;> simp [List.filter, hm, hyk]

theorem sortMsgs_stable (l : List Msg) (k : Nat) :
    (sortMsgs l).filter (fun x => decide (x.timestamp = k))
      = l.filter (fun x => decide (x.timestamp = k)) := by
  induction l with
  | nil => rfl
  | cons m rest ih =>
    rw [sortMsgs, insertByTs_filter]
    by_cases hm : m.timestamp = k <;> simp [List.filter, hm, ih]

/-- C3 amended: the render walks the sorted sequence emitting one
`Speaker @` header per maximal run of equal display names (never a header
mid-run), and the sort is a stable ascending sort by timestamp **over the
collected sequence** — which `generateTranscript` builds grouped by speaker
(each speaker's fragments in append order, speakers in first-append order),
not in global append order. -/
theorem render_groups_and_stable_sort (msgs : List Msg) :
    renderTranscript msgs = renderGroupsCont [] (groupRuns msgs)
    ∧ (sortMsgs msgs).Pairwise (fun a b => a.timestamp ≤ b.timestamp)
    ∧ ∀ k, (sortMsgs msgs).filter (fun x => decide (x.timestamp = k))
        = msgs.filter (fun x => decide (x.timestamp = k)) :=
  ⟨renderGo_eq_groups msgs [], sortMsgs_pairwise msgs,
   fun k => sortMsgs_stable msgs k⟩

/-- The three appends exhibiting the tie-break divergence: user `u1`
appends at time 0, user `u2` at time 5, then `u1` again at time 5. -/
def c3events : List AppendEv :=
  [⟨"g", "u1", lit "A", lit "a1", 0⟩,
   ⟨"g", "u2", lit "B", lit "b1", 5⟩,
   ⟨"g", "u1", lit "A", lit "a2", 5⟩]

/-- C3 counterexample: on `c3events` the drained document differs from the
claim's document (stable sort with ties broken by global append order):
the code collects fragments grouped per user before sorting, so `u1`'s
second fragment (appended after `u2`'s) still sorts before `u2`'s
equal-timestamp fragment. -/
theorem drain_tiebreak_not_append_order :
    (generateTranscript "g" (buildState c3events)).1
      ≠ some (drainSpecAppendOrder "g" c3events) ∧
    (generateTranscript "g" (buildState c3events)).1
      = some (lit "Speaker @A: a1 a2 \n\nSpeaker @B: b1") := by
  constructor
  · decide
  · decide

theorem splitSectionsAux_skip (xs rest : Str) (h : ∀ c ∈ xs, c ≠ '\n') :
    ∀ acc, splitSectionsAux (xs ++ rest) acc
      = splitSectionsAux rest (xs.reverse ++ acc) := by
  induction xs with
  | nil => intro acc; simp
  | cons c xs' ih =>
    intro acc
    have hc : c ≠ '\n' := h c (List.mem_cons_self c xs')
    rw [List.cons_append, splitSectionsAux,
      if_neg (fun hco => hc hco.1),
      ih (fun d hd => h d (List.mem_cons_of_mem c hd))]
    simp [List.append_assoc]

theorem splitSectionsAux_boundary (rest : Str) (acc : Str)
    (h : sectionStart rest = true) :
    splitSectionsAux ('\n' :: rest) acc
      = acc.reverse :: splitSectionsAux rest [] := by
  rw [splitSectionsAux, if_pos ⟨rfl, h⟩]

theorem jsTrim_eq_self (c d : Char) (mid : Str) (hc : isWs c = false)
    (hd : isWs d = false) :
    jsTrim (c :: (mid ++ [d])) = c :: (mid ++ [d]) := by
  unfold jsTrim
  rw [show (c :: (mid ++ [d])).dropWhile isWs = c :: (mid ++ [d]) from by
    simp [List.dropWhile_cons, hc]]
  rw [show (c :: (mid ++ [d])).reverse = d :: (mid.reverse ++ [c]) from by
    simp]
  rw [show (d :: (mid.reverse ++ [c])).dropWhile isWs
      = d :: (mid.reverse ++ [c]) from by simp [List.dropWhile_cons, hd]]
  simp

theorem isEmpty_false_of_length {l : Str} {n : Nat} (h : l.length = n)
    (hn : n ≠ 0) : l.isEmpty = false := by
  cases l with
  | nil => rw [List.length_nil] at h; exact absurd h.symm hn
  | cons c t => rfl

/-- First section of the oversized-summary scenario: a `###` section of
2500 characters. -/
def c7s1 : Str := lit "### A " ++ (List.replicate 2493 'a' ++ ['a'])

/-- Second section: 499 characters. -/
def c7s2 : Str := lit "### B " ++ (List.replicate 492 'b' ++ ['b'])

/-- A 3000-character summary made of the two sections. -/
def c7summary : Str := c7s1 ++ ('\n' :: c7s2)

theorem c7s1_no_newline : ∀ c ∈ c7s1, c ≠ '\n' := by
  intro c hc
  rcases List.mem_append.mp hc with h | h
  · have h' : c = '#' ∨ c = ' ' ∨ c = 'A' ∨ c = ' ' := by
      rw [show lit "### A " = ['#', '#', '#', ' ', 'A', ' '] from rfl] at h
      simpa using h
    rcases h' with rfl | rfl | rfl | rfl <;> decide
  · rcases List.mem_append.mp h with h' | h'
    · rw [List.eq_of_mem_replicate h']; decide
    · rw [show c ∈ ['a'] ↔ c = 'a' from List.mem_singleton] at h'
      rw [h']; decide

theorem c7s2_no_newline : ∀ c ∈ c7s2, c ≠ '\n' := by
  intro c hc
  rcases List.mem_append.mp hc with h | h
  · have h' : c = '#' ∨ c = ' ' ∨ c = 'B' ∨ c = ' ' := by
      rw [show lit "### B " = ['#', '#', '#', ' ', 'B', ' '] from rfl] at h
      simpa using h
    rcases h' with rfl | rfl | rfl | rfl <;> decide
  · rcases List.mem_append.mp h with h' | h'
    · rw [List.eq_of_mem_replicate h']; decide
    · rw [show c ∈ ['b'] ↔ c = 'b' from List.mem_singleton] at h'
      rw [h']; decide

theorem c7s1_len : c7s1.length = 2500 := by
  rw [c7s1, List.length_append, List.length_append, List.length_replicate,
    show (lit "### A ").length = 6 from rfl,
    show (['a'] : Str).length = 1 from rfl]

theorem c7s2_len : c7s2.length = 499 := by
  rw [c7s2, List.length_append, List.length_append, List.length_replicate,
    show (lit "### B ").length = 6 from rfl,
    show (['b'] : Str).length = 1 from rfl]

theorem c7summary_len : c7summary.length = 3000 := by
  rw [c7summary, List.length_append, List.length_cons, c7s1_len, c7s2_len]

theorem c7s1_shape :
    c7s1 = '#' :: ((lit "## A " ++ List.replicate 2493 'a') ++ ['a']) := by
  rw [c7s1, show lit "### A " = '#' :: lit "## A " from rfl,
    List.cons_append, List.append_assoc]

theorem c7s2_shape :
    c7s2 = '#' :: ((lit "## B " ++ List.replicate 492 'b') ++ ['b']) := by
  rw [c7s2, show lit "### B " = '#' :: lit "## B " from rfl,
    List.cons_append, List.append_assoc]

theorem c7s1_trim : jsTrim c7s1 = c7s1 := by
  rw [c7s1_shape]
  exact jsTrim_eq_self '#' 'a' _ (by decide) (by decide)

theorem c7s2_trim : jsTrim c7s2 = c7s2 := by
  rw [c7s2_shape]
  exact jsTrim_eq_self '#' 'b' _ (by decide) (by decide)

theorem c7summary_trim : jsTrim c7summary = c7summary := by
  have hshape : c7summary = '#' :: (((lit "## A "
      ++ (List.replicate 2493 'a' ++ ['a']))
      ++ ('\n' :: (lit "### B " ++ List.replicate 492 'b'))) ++ ['b']) := by
    rw [c7summary, c7s1_shape, c7s2]
    rw [show '#' :: ((lit "## A " ++ List.replicate 2493 'a') ++ ['a'])
        = '#' :: (lit "## A " ++ (List.replicate 2493 'a' ++ ['a'])) from by
      rw [List.append_assoc]]
    rw [List.cons_append]
    simp only [List.append_assoc, List.cons_append]
  rw [hshape]
  exact jsTrim_eq_self '#' 'b' _ (by decide) (by decide)

theorem c7_split_aux : splitSectionsAux c7summary [] = [c7s1, c7s2] := by
  rw [c7summary, splitSectionsAux_skip c7s1 _ c7s1_no_newline []]
  rw [splitSectionsAux_boundary _ _ (by rw [c7s2]; rfl)]
  rw [show splitSectionsAux c7s2 [] = splitSectionsAux (c7s2 ++ []) [] from by
    rw [List.append_nil]]
  rw [splitSectionsAux_skip c7s2 _ c7s2_no_newline []]
  simp [splitSectionsAux]

theorem c7_sections : splitSummaryIntoSections c7summary = [c7s1, c7s2] := by
  have hne : c7summary.isEmpty = false :=
    isEmpty_false_of_length c7summary_len (by decide)
  have h1 : c7s1.isEmpty = false := isEmpty_false_of_length c7s1_len (by decide)
  have h2 : c7s2.isEmpty = false := isEmpty_false_of_length c7s2_len (by decide)
  simp only [splitSummaryIntoSections, c7summary_trim, hne,
    Bool.false_eq_true, if_false, c7_split_aux, List.map_cons, List.map_nil,
    c7s1_trim, c7s2_trim]
  rw [show List.filter (fun s => !List.isEmpty s) [c7s1, c7s2]
      = [c7s1, c7s2] from by simp [List.filter, h1, h2]]
  rfl

/-- The first-message header of the oversized-summary scenario. -/
def c7H : Str := sectionHeader (lit "T") [lit "U"]

/-- The continuation header of the oversized-summary scenario. -/
def c7C : Str := continuationHeader (lit "T") [lit "U"]

theorem c7H_len : c7H.length = 51 := by decide

theorem c7C_len : c7C.length = 63 := by decide

theorem c7s1_last : c7s1.getLast? = some 'a' := by
  rw [c7s1, ← List.append_assoc, List.getLast?_concat]

theorem c7s2_last : c7s2.getLast? = some 'b' := by
  rw [c7s2, ← List.append_assoc, List.getLast?_concat]

theorem c7_chunk_eval :
    chunkSectionsForDiscord (lit "T") [lit "U"] c7summary 1950
      = [c7H, c7C ++ c7s1, c7C ++ c7s2] := by
  have hfull : (c7H ++ c7summary).length = 3051 := by
    rw [List.length_append, c7H_len, c7summary_len]
  have hstep1 : (c7H ++ ([] : Str) ++ c7s1).length = 2551 := by
    rw [List.length_append, List.length_append, c7H_len, c7s1_len]; rfl
  have hstep2 : ((c7C ++ c7s1) ++ lit "\n\n" ++ c7s2).length = 3064 := by
    rw [List.length_append, List.length_append, List.length_append,
      c7C_len, c7s1_len, c7s2_len]; rfl
  have hend1 : endsWithNl c7H = true := by decide
  have hend2 : endsWithNl (c7C ++ c7s1) = false := by
    rw [endsWithNl, List.getLast?_append, c7s1_last]
    rfl
  have hne3 : ¬ (c7C ++ c7s2 = c7H ∨ c7C ++ c7s2 = c7C) := by
    rintro (he | he)
    · have hl := congrArg List.length he
      rw [List.length_append, c7C_len, c7s2_len, c7H_len] at hl
      omega
    · have hl := congrArg List.length he
      rw [List.length_append, c7C_len, c7s2_len] at hl
      omega
  rw [chunkSectionsForDiscord]
  rw [show sectionHeader (lit "T") [lit "U"] = c7H from rfl,
    show continuationHeader (lit "T") [lit "U"] = c7C from rfl]
  rw [c7_sections]
  rw [if_neg (by rw [hfull]; omega)]
  rw [chunkLoop]
  simp only [hend1, if_true]
  rw [if_neg (by rw [hstep1]; omega)]
  rw [chunkLoop]
  simp only [hend2, Bool.false_eq_true, if_false]
  rw [if_neg (by rw [hstep2]; omega)]
  rw [chunkLoop, if_neg hne3]

/-- C7 counterexample: `c7summary` is a 3000-character summary with exactly
two sections, yet one of the messages produced by `chunkSectionsForDiscord`
at the default 1950-character bound is 2563 characters long — a section
that alone exceeds the bound is sent whole, so the output violates the
claimed "no output message exceeds the bound". -/
theorem chunk_3000_two_sections_overflows :
    c7summary.length = 3000 ∧
    (splitSummaryIntoSections c7summary).length = 2 ∧
    ∃ m ∈ chunkSectionsForDiscord (lit "T") [lit "U"] c7summary 1950,
      1950 < m.length := by
  refine ⟨c7summary_len, by rw [c7_sections]; rfl, ?_⟩
  refine ⟨c7C ++ c7s1, ?_, ?_⟩
  · rw [c7_chunk_eval]
    exact List.mem_cons_of_mem _ (List.mem_cons_self _ _)
  · rw [List.length_append, c7C_len, c7s1_len]
    omega

theorem preTrans {a b c : Str} (h1 : a <+: b) (h2 : b <+: c) : a <+: c := by
  obtain ⟨t1, ht1⟩ := h1
  obtain ⟨t2, ht2⟩ := h2
  exact ⟨t1 ++ t2, by rw [← List.append_assoc, ht1, ht2]⟩

theorem preLen {a b : Str} (h : a <+: b) : a.length ≤ b.length := by
  obtain ⟨t, ht⟩ := h
  rw [← ht, List.length_append]
  omega

theorem preApp (a t : Str) : a <+: a ++ t := ⟨t, rfl⟩

theorem preApp2 (a b c : Str) : a <+: a ++ b ++ c :=
  ⟨b ++ c, by rw [List.append_assoc]⟩

theorem append_start_cancel (X A B : Str) :
    (X ++ A <+: X ++ B) ↔ (A <+: B) := by
  constructor
  · rintro ⟨t, ht⟩
    refine ⟨t, ?_⟩
    have hd := congrArg (List.drop X.length) ht
    rwa [List.append_assoc, List.drop_left, List.drop_left] at hd
  · rintro ⟨t, ht⟩
    exact ⟨t, by rw [List.append_assoc, ht]⟩

theorem header_not_pre (title : Str) (users : List Str) :
    ¬ (sectionHeader title users <+: continuationHeader title users) := by
  rw [sectionHeader, continuationHeader, append_start_cancel]
  decide

theorem header_len_lt (title : Str) (users : List Str) :
    (sectionHeader title users).length
      < (continuationHeader title users).length := by
  rw [sectionHeader, continuationHeader, List.length_append,
    List.length_append]
  have h1 : (lit "**Summary:**\n").length = 13 := by decide
  have h2 : (lit "**Summary (continued):**\n").length = 25 := by decide
  omega

theorem sections_ne_nil (summary : Str) :
    ∀ s ∈ splitSummaryIntoSections summary, s ≠ [] := by
  intro s hs
  unfold splitSummaryIntoSections at hs
  by_cases ht : (jsTrim summary).isEmpty
  · simp [ht] at hs
  · simp only [ht, Bool.false_eq_true, if_false] at hs
    by_cases hse : (((splitSectionsAux (jsTrim summary) []).map jsTrim).filter
        (fun s => !s.isEmpty)).isEmpty
    · simp only [hse, if_true, List.mem_singleton] at hs
      subst hs
      intro he
      rw [he] at ht
      exact ht rfl
    · simp only [hse, Bool.false_eq_true, if_false] at hs
      have := List.of_mem_filter hs
      intro he
      rw [he] at this
      simp at this

theorem jsTrim_infix (cs : Str) : ∃ pre post, cs = pre ++ jsTrim cs ++ post := by
  refine ⟨cs.takeWhile isWs,
    ((cs.dropWhile isWs).reverse.takeWhile isWs).reverse, ?_⟩
  unfold jsTrim
  conv_lhs => rw [← List.takeWhile_append_dropWhile (p := isWs) (l := cs)]
  rw [List.append_assoc]
  congr 1
  have hsplit := List.takeWhile_append_dropWhile (p := isWs)
    (l := (cs.dropWhile isWs).reverse)
  have := congrArg List.reverse hsplit
  rw [List.reverse_append, List.reverse_reverse] at this
  exact this.symm

theorem splitSectionsAux_infix :
    ∀ (cs acc p : Str), p ∈ splitSectionsAux cs acc →
      ∃ pre post, acc.reverse ++ cs = pre ++ p ++ post := by
  intro cs
  induction cs with
  | nil =>
    intro acc p hp
    simp only [splitSectionsAux, List.mem_singleton] at hp
    subst hp
    exact ⟨[], [], by simp⟩
  | cons c rest ih =>
    intro acc p hp
    rw [splitSectionsAux] at hp
    by_cases hcond : (c = '\n' ∧ sectionStart rest = true)
    · rw [if_pos hcond] at hp
      rcases List.mem_cons.mp hp with rfl | hp'
      · exact ⟨[], c :: rest, by simp⟩
      · obtain ⟨pre, post, heq⟩ := ih [] p hp'
        simp only [List.reverse_nil, List.nil_append] at heq
        refine ⟨acc.reverse ++ [c] ++ pre, post, ?_⟩
        rw [show acc.reverse ++ (c :: rest)
            = acc.reverse ++ [c] ++ rest from by simp, heq]
        simp [List.append_assoc]
    · rw [if_neg hcond] at hp
      obtain ⟨pre, post, heq⟩ := ih (c :: acc) p hp
      refine ⟨pre, post, ?_⟩
      rw [← heq]
      simp

theorem sections_infix (summary : Str) :
    ∀ s ∈ splitSummaryIntoSections summary,
      ∃ pre post, summary = pre ++ s ++ post := by
  intro s hs
  unfold splitSummaryIntoSections at hs
  by_cases ht : (jsTrim summary).isEmpty
  · simp [ht] at hs
  · simp only [ht, Bool.false_eq_true, if_false] at hs
    obtain ⟨pre1, post1, h1⟩ := jsTrim_infix summary
    by_cases hse : (((splitSectionsAux (jsTrim summary) []).map jsTrim).filter
        (fun s => !s.isEmpty)).isEmpty
    · simp only [hse, if_true, List.mem_singleton] at hs
      subst hs
      exact ⟨pre1, post1, h1⟩
    · simp only [hse, Bool.false_eq_true, if_false] at hs
      have hs' := List.mem_of_mem_filter hs
      obtain ⟨piece, hpiece, hsp⟩ := List.mem_map.mp hs'
      obtain ⟨pre2, post2, h2⟩ :=
        splitSectionsAux_infix (jsTrim summary) [] piece hpiece
      simp only [List.reverse_nil, List.nil_append] at h2
      obtain ⟨pre3, post3, h3⟩ := jsTrim_infix piece
      rw [hsp] at h3
      refine ⟨pre1 ++ pre2 ++ pre3, post3 ++ post2 ++ post1, ?_⟩
      calc summary = pre1 ++ jsTrim summary ++ post1 := h1
        _ = pre1 ++ (pre2 ++ piece ++ post2) ++ post1 := by rw [h2]
        _ = pre1 ++ (pre2 ++ (pre3 ++ s ++ post3) ++ post2) ++ post1 := by
            rw [← h3]
        _ = (pre1 ++ pre2 ++ pre3) ++ s ++ (post3 ++ post2 ++ post1) := by
            simp [List.append_assoc]

theorem chunkLoop_nil (limit : Nat) (H C cur : Str) :
    chunkLoop limit H C [] cur
      = if cur = H ∨ cur = C then [] else [cur] := rfl

theorem chunkLoop_cons (limit : Nat) (H C s cur : Str) (rest : List Str) :
    chunkLoop limit H C (s :: rest) cur
      = if (cur ++ (if endsWithNl cur then ([] : Str) else lit "\n\n")
            ++ s).length ≤ limit
        then chunkLoop limit H C rest
          (cur ++ (if endsWithNl cur then ([] : Str) else lit "\n\n") ++ s)
        else cur :: chunkLoop limit H C rest (C ++ s) := rfl

theorem grow_ne (H C cur sep s : Str) (hnp : ¬ H <+: C) (hs : s ≠ [])
    (hp : H <+: cur ∨ C <+: cur) (hlc : H.length < C.length) :
    cur ++ sep ++ s ≠ H ∧ cur ++ sep ++ s ≠ C := by
  have hsl : 1 ≤ s.length := by
    cases s with
    | nil => exact absurd rfl hs
    | cons a t => rw [List.length_cons]; omega
  have hcl : H.length ≤ cur.length ∨ C.length ≤ cur.length := by
    rcases hp with h | h
    · exact Or.inl (preLen h)
    · exact Or.inr (preLen h)
  constructor
  · intro he
    have hl := congrArg List.length he
    rw [List.length_append, List.length_append] at hl
    rcases hcl with h | h <;> omega
  · intro he
    rcases hp with h | h
    · exact hnp (he ▸ preApp2 cur sep s |> preTrans h)
    · have hl := congrArg List.length he
      rw [List.length_append, List.length_append] at hl
      have := preLen h
      omega

theorem contGrow_ne (H C s : Str) (hs : s ≠ [])
    (hlc : H.length < C.length) : C ++ s ≠ H ∧ C ++ s ≠ C := by
  have hsl : 1 ≤ s.length := by
    cases s with
    | nil => exact absurd rfl hs
    | cons a t => rw [List.length_cons]; omega
  constructor
  · intro he
    have hl := congrArg List.length he
    rw [List.length_append] at hl
    omega
  · intro he
    have hl := congrArg List.length he
    rw [List.length_append] at hl
    omega

theorem chunkLoop_cur_emitted (limit : Nat) (H C : Str)
    (hnp : ¬ H <+: C) (hlc : H.length < C.length) :
    ∀ (sections : List Str) (cur : Str),
      (H <+: cur ∨ C <+: cur) → cur ≠ H → cur ≠ C →
      (∀ s ∈ sections, s ≠ []) →
      ∃ m ∈ chunkLoop limit H C sections cur, cur <+: m := by
  intro sections
  induction sections with
  | nil =>
    intro cur hp hne1 hne2 _
    rw [chunkLoop_nil,
      if_neg (by rintro (h | h) <;> [exact hne1 h; exact hne2 h])]
    exact ⟨cur, List.mem_singleton.mpr rfl, ⟨[], List.append_nil cur⟩⟩
  | cons s0 rest ih =>
    intro cur hp hne1 hne2 hsec
    rw [chunkLoop_cons]
    by_cases hfit : (cur ++ (if endsWithNl cur then ([] : Str)
        else lit "\n\n") ++ s0).length ≤ limit
    · rw [if_pos hfit]
      have hcand : cur <+: cur ++ (if endsWithNl cur then ([] : Str)
          else lit "\n\n") ++ s0 :=
        preApp2 cur _ s0
      have hp' := hp.imp (fun h => preTrans h hcand) (fun h => preTrans h hcand)
      have hne := grow_ne H C cur
        (if endsWithNl cur then ([] : Str) else lit "\n\n") s0 hnp
        (hsec s0 (List.mem_cons_self s0 rest)) hp hlc
      obtain ⟨m, hm, hpre⟩ := ih _ hp' hne.1 hne.2
        (fun x hx => hsec x (List.mem_cons_of_mem s0 hx))
      exact ⟨m, hm, preTrans hcand hpre⟩
    · rw [if_neg hfit]
      exact ⟨cur, List.mem_cons_self _ _, ⟨[], List.append_nil cur⟩⟩

theorem chunkLoop_sections_whole (limit : Nat) (H C : Str)
    (hnp : ¬ H <+: C) (hlc : H.length < C.length) :
    ∀ (sections : List Str) (cur : Str),
      (H <+: cur ∨ C <+: cur) →
      (∀ s ∈ sections, s ≠ []) →
      ∀ s ∈ sections, ∃ m ∈ chunkLoop limit H C sections cur,
        ∃ pre post, m = pre ++ s ++ post := by
  intro sections
  induction sections with
  | nil => intro cur _ _ s hs; exact absurd hs (List.not_mem_nil s)
  | cons s0 rest ih =>
    intro cur hp hsec s hs
    rw [chunkLoop_cons]
    by_cases hfit : (cur ++ (if endsWithNl cur then ([] : Str)
        else lit "\n\n") ++ s0).length ≤ limit
    · rw [if_pos hfit]
      have hcand : cur <+: cur ++ (if endsWithNl cur then ([] : Str)
          else lit "\n\n") ++ s0 :=
        preApp2 cur _ s0
      have hp' := hp.imp (fun h => preTrans h hcand) (fun h => preTrans h hcand)
      have hne := grow_ne H C cur
        (if endsWithNl cur then ([] : Str) else lit "\n\n") s0 hnp
        (hsec s0 (List.mem_cons_self s0 rest)) hp hlc
      rcases List.mem_cons.mp hs with rfl | hs'
      · obtain ⟨m, hm, hpre⟩ := chunkLoop_cur_emitted limit H C hnp hlc
          rest _ hp' hne.1 hne.2
          (fun x hx => hsec x (List.mem_cons_of_mem s hx))
        obtain ⟨t, ht⟩ := hpre
        refine ⟨m, hm,
          cur ++ (if endsWithNl cur then ([] : Str) else lit "\n\n"), t, ?_⟩
        rw [← ht]
      · exact ih _ hp' (fun x hx => hsec x (List.mem_cons_of_mem s0 hx)) s hs'
    · rw [if_neg hfit]
      have hnes0 := hsec s0 (List.mem_cons_self s0 rest)
      rcases List.mem_cons.mp hs with rfl | hs'
      · have hC := contGrow_ne H C s hnes0 hlc
        obtain ⟨m, hm, hpre⟩ := chunkLoop_cur_emitted limit H C hnp hlc
          rest (C ++ s) (Or.inr (preApp C s)) hC.1 hC.2
          (fun x hx => hsec x (List.mem_cons_of_mem s hx))
        obtain ⟨t, ht⟩ := hpre
        refine ⟨m, List.mem_cons_of_mem _ hm, C, t, ?_⟩
        rw [← ht]
      · obtain ⟨m, hm, hinf⟩ := ih (C ++ s0) (Or.inr (preApp C s0))
          (fun x hx => hsec x (List.mem_cons_of_mem s0 hx)) s hs'
        exact ⟨m, List.mem_cons_of_mem _ hm, hinf⟩

theorem chunkLoop_length_bound (limit : Nat) (H C : Str) :
    ∀ (sections : List Str) (cur : Str),
      cur.length ≤ limit →
      (∀ s ∈ sections, (C ++ s).length ≤ limit) →
      ∀ m ∈ chunkLoop limit H C sections cur, m.length ≤ limit := by
  intro sections
  induction sections with
  | nil =>
    intro cur hcur _ m hm
    rw [chunkLoop_nil] at hm
    split at hm
    · exact absurd hm (List.not_mem_nil m)
    · rw [List.mem_singleton] at hm
      subst hm
      exact hcur
  | cons s0 rest ih =>
    intro cur hcur hsec m hm
    rw [chunkLoop_cons] at hm
    by_cases hfit : (cur ++ (if endsWithNl cur then ([] : Str)
        else lit "\n\n") ++ s0).length ≤ limit
    · rw [if_pos hfit] at hm
      exact ih _ hfit (fun x hx => hsec x (List.mem_cons_of_mem s0 hx)) m hm
    · rw [if_neg hfit] at hm
      rcases List.mem_cons.mp hm with rfl | hm'
      · exact hcur
      · exact ih (C ++ s0) (hsec s0 (List.mem_cons_self s0 rest))
          (fun x hx => hsec x (List.mem_cons_of_mem s0 hx)) m hm'

/-- C7 amended: `chunkSectionsForDiscord` returns the single full message
when it fits the bound; it never splits a section (every section occurs
contiguously inside one output message); and provided the header fits and
every section fits in one message alongside the continuation header, no
output message exceeds the bound — but a section that alone exceeds the
bound is emitted whole in a message that exceeds the bound (see the
counterexample). -/
theorem chunk_respects_sections (title : Str) (users : List Str)
    (summary : Str) (limit : Nat) :
    ((sectionHeader title users ++ summary).length ≤ limit →
      chunkSectionsForDiscord title users summary limit
        = [sectionHeader title users ++ summary]) ∧
    ((sectionHeader title users).length ≤ limit →
      (∀ s ∈ splitSummaryIntoSections summary,
        (continuationHeader title users ++ s).length ≤ limit) →
      ∀ m ∈ chunkSectionsForDiscord title users summary limit,
        m.length ≤ limit) ∧
    (∀ s ∈ splitSummaryIntoSections summary,
      ∃ m ∈ chunkSectionsForDiscord title users summary limit,
        ∃ pre post, m = pre ++ s ++ post) := by
  refine ⟨?_, ?_, ?_⟩
  · intro hfit
    rw [chunkSectionsForDiscord, if_pos hfit]
  · intro hH hsec m hm
    rw [chunkSectionsForDiscord] at hm
    by_cases hfull : (sectionHeader title users ++ summary).length ≤ limit
    · rw [if_pos hfull] at hm
      rw [List.mem_singleton] at hm
      subst hm
      exact hfull
    · rw [if_neg hfull] at hm
      exact chunkLoop_length_bound limit (sectionHeader title users)
        (continuationHeader title users) _ _ hH hsec m hm
  · intro s hs
    by_cases hfull : (sectionHeader title users ++ summary).length ≤ limit
    · rw [chunkSectionsForDiscord, if_pos hfull]
      obtain ⟨pre, post, hinfx⟩ := sections_infix summary s hs
      refine ⟨sectionHeader title users ++ summary,
        List.mem_singleton.mpr rfl, sectionHeader title users ++ pre, post,
        ?_⟩
      rw [hinfx]
      simp [List.append_assoc]
    · rw [chunkSectionsForDiscord, if_neg hfull]
      exact chunkLoop_sections_whole limit (sectionHeader title users)
        (continuationHeader title users) (header_not_pre title users)
        (header_len_lt title users) _ _
        (Or.inl ⟨[], List.append_nil _⟩) (sections_ne_nil summary) s hs

theorem chunk_respects_sections_witness :
    chunkSectionsForDiscord (lit "T") [lit "U"] (lit "### A\nhi") 1950
      = [sectionHeader (lit "T") [lit "U"] ++ lit "### A\nhi"] :=
  (chunk_respects_sections (lit "T") [lit "U"] (lit "### A\nhi") 1950).1
    (by decide)
